import Mathlib

/-
Verification development for the "Multi Conditional Select" K2 node
(UEPlugin-MultipleCaseBranch, file K2Node_MultiConditionalSelect.cpp).

The node keeps an ordered pin list:
  0 : Default (input, wildcard)
  1..N : Option pins (input, wildcard until fixed)
  N+1..2N : Condition pins (input, boolean)
  2N+1 : Return Value (output, wildcard until fixed)

Operations embedded below:
  - CreateDefaultOptionPin / CreateReturnValuePin / AddCasePinPair /
    AllocateDefaultPins (pin layout management),
  - PinConnectionListChanged (the type-unification pass),
  - ReallocatePinsDuringReconstruction,
  - IsConnectionDisallowed,
  - the semantics of the primitive subgraph produced by ExpandNode
    (MakeArray + Array_Find + Select + EqualEqual_IntInt + Select).

Base-class helpers (GetCasePinCount, GetCasePinPairs, IsCaseValuePin, the
stable pin-name scheme) are declared in the header but implemented in a
base class that is not part of the two available source files; they are
modelled from the spec where noted.
-/

/-- Pin type: the category / subcategory pair, mirroring the parts of
FEdGraphPinType (PinCategory, PinSubCategory) that the node reads and
writes.  Assignments in the source copy the whole FEdGraphPinType value;
here the record is copied. -/
structure PinType where
  category : String
  subCategory : String
deriving DecidableEq, Repr

/-- UEdGraphSchema_K2::PC_Wildcard. -/
def PC_Wildcard : String := "wildcard"

/-- UEdGraphSchema_K2::PC_Boolean. -/
def PC_Boolean : String := "bool"

/-- UEdGraphSchema_K2::PC_Int. -/
def PC_Int : String := "int"

/-- UEdGraphSchema_K2::PC_Exec. -/
def PC_Exec : String := "exec"

/-- UEdGraphSchema_K2::PSC_Index. -/
def PSC_Index : String := "index"

/-- The wildcard (unresolved) pin type. -/
def wildcardType : PinType := ⟨PC_Wildcard, ""⟩

/-- The boolean pin type used for condition pins. -/
def booleanType : PinType := ⟨PC_Boolean, ""⟩

/-- Pin direction (EGPD_Input / EGPD_Output). -/
inductive PinDirection where
  | input
  | output
deriving DecidableEq, Repr

/-- Stable pin names.  `defaultOption` is the FName "Default",
`returnValue` is "Return Value"; `caseOption i` and `caseCondition i`
model the stable identifiers built from CaseKeyPinNamePrefix
("CaseOption") resp. CaseValuePinNamePrefix ("CaseCondition") plus the
case index (the name scheme of GetCasePinName, modelled from the spec:
option pin i has stable identifier option-name-stem + i, condition pin i
has condition-name-stem + i). -/
inductive PinName where
  | defaultOption
  | returnValue
  | caseOption (i : Nat)
  | caseCondition (i : Nat)
deriving DecidableEq, Repr

/-- A pin: stable name, direction, declared type, literal default value. -/
structure Pin where
  name : PinName
  direction : PinDirection
  pinType : PinType
  defaultValue : String
deriving DecidableEq, Repr

/-- The node state: its ordered pin list (UEdGraphNode::Pins). -/
structure NodeState where
  pins : List Pin
deriving DecidableEq, Repr

/-- Insert an element at ordinal position `i` (FCreatePinParams::Index). -/
def insertAt {α : Type} (l : List α) (i : Nat) (a : α) : List α :=
  l.take i ++ a :: l.drop i

/-- UEdGraphNode::FindPin: first pin with the given stable name. -/
def findPin (s : NodeState) (n : PinName) : Option Pin :=
  s.pins.find? (fun p => decide (p.name = n))

/-- Whether a stable name is an option (case key) pin name. -/
def isOptionPinName : PinName → Bool
  | .caseOption _ => true
  | _ => false

/-- Whether a stable name is a condition (case value) pin name. -/
def isConditionPinName : PinName → Bool
  | .caseCondition _ => true
  | _ => false

/-- Modelled from the spec: IsCaseValuePin (base class, not under src):
recognizes condition pins by their stable-name scheme. -/
def isCaseValuePin (p : Pin) : Bool := isConditionPinName p.name

/-- Modelled from the spec: IsOptionPin (base class, not under src). -/
def isOptionPin (p : Pin) : Bool := isOptionPinName p.name

/-- Modelled from the spec: GetCasePinCount (base class, not under src):
the total case-pair count is derived by counting option pins, not stored
separately. -/
def getCasePinCount (s : NodeState) : Nat :=
  s.pins.countP (fun p => isOptionPin p)

/-- The declared type of the default pin.  The source dereferences
GetDefaultOptionPin() unconditionally; a missing default pin is a
contract violation, modelled by the wildcard type. -/
def getDefaultOptionPinType (s : NodeState) : PinType :=
  match findPin s .defaultOption with
  | some p => p.pinType
  | none => wildcardType

/-- CreateDefaultOptionPin: input wildcard pin "Default" at position 0. -/
def createDefaultOptionPin (s : NodeState) : NodeState :=
  ⟨insertAt s.pins 0 ⟨.defaultOption, .input, wildcardType, ""⟩⟩

/-- CreateReturnValuePin: output wildcard pin "Return Value" at position
2 * N + 1, where N is the current case-pair count. -/
def createReturnValuePin (s : NodeState) : NodeState :=
  let N := getCasePinCount s
  ⟨insertAt s.pins (2 * N + 1) ⟨.returnValue, .output, wildcardType, ""⟩⟩

/-- AddCasePinPair: reads N = GetCasePinCount() first, then creates the
option pin at ordinal position 1 + CaseIndex (created wildcard, then its
PinType is assigned from the current default pin's type) and the
condition pin, always boolean, at ordinal position N + 2 + CaseIndex. -/
def addCasePinPair (s : NodeState) (caseIndex : Nat) : NodeState :=
  let N := getCasePinCount s
  let dty := getDefaultOptionPinType s
  let s1 : NodeState := ⟨insertAt s.pins (1 + caseIndex) ⟨.caseOption caseIndex, .input, dty, ""⟩⟩
  ⟨insertAt s1.pins (N + 2 + caseIndex) ⟨.caseCondition caseIndex, .input, booleanType, ""⟩⟩

/-- AllocateDefaultPins: default pin, return-value pin, then two initial
case pairs (indices 0 and 1). -/
def allocateDefaultPins : NodeState :=
  let s := createDefaultOptionPin ⟨[]⟩
  let s := createReturnValuePin s
  let s := addCasePinPair s 0
  addCasePinPair s 1

/-- Guarded pin update: apply `h` to the pin named `n`, leave others. -/
def updatePin (n : PinName) (h : Pin → Pin) (p : Pin) : Pin :=
  if p.name = n then h p else p

/-- Map a guarded update over the node's pins (in-place mutation of the
pin found by name, as the source does through pin pointers). -/
def mapPins (s : NodeState) (n : PinName) (h : Pin → Pin) : NodeState :=
  ⟨s.pins.map (updatePin n h)⟩

/-- Assign a pin's declared type (Pin->PinType = ...). -/
def setPinType (s : NodeState) (n : PinName) (t : PinType) : NodeState :=
  mapPins s n (fun p => ⟨p.name, p.direction, t, p.defaultValue⟩)

/-- Model of UEdGraphSchema_K2::ResetPinToAutogeneratedDefaultValue's
canonical literal for a type (engine schema function): booleans reset to
"false", integers to "0", other categories to the empty literal. -/
def autogeneratedDefaultValue (t : PinType) : String :=
  if t.category = PC_Boolean then "false"
  else if t.category = PC_Int then "0"
  else ""

/-- ResetPinToAutogeneratedDefaultValue applied to the pin named `n`. -/
def resetPinToAutogeneratedDefaultValue (s : NodeState) (n : PinName) : NodeState :=
  mapPins s n (fun p => ⟨p.name, p.direction, p.pinType, autogeneratedDefaultValue p.pinType⟩)

/-- The source's per-pin unification step: assign the linked type, then
reset the literal default value (lines 116-117, 120-121, 128-129). -/
def applyTypeToPin (s : NodeState) (n : PinName) (t : PinType) : NodeState :=
  resetPinToAutogeneratedDefaultValue (setPinType s n t) n

/-- Modelled from the spec: GetCasePinPairs (base class, not under src):
the ordered sequence of (option pin, condition pin) pairs, indexed
consistently with creation order, one pair per case index below the
case-pair count. -/
def getCasePinPairs (s : NodeState) : List (Pin × Pin) :=
  (List.range (getCasePinCount s)).filterMap (fun i =>
    match findPin s (.caseOption i), findPin s (.caseCondition i) with
    | some k, some v => some (k, v)
    | _, _ => none)

/-- PinConnectionListChanged (the type-unification pass, lines 83-135).
`pinName` identifies the event pin (a null pin is modelled by an absent
name); `linkedTypes` lists the types of the event pin's linked peers
(Pin->LinkedTo), head first.  Disconnections (no links) and condition
pins are ignored; if the default pin's type is already fixed the handler
returns unchanged; otherwise the first linked peer's type is applied to
the default pin, the return-value pin, and every case option pin, each
with its literal default reset. -/
def pinConnectionListChanged (s : NodeState) (pinName : PinName)
    (linkedTypes : List PinType) : NodeState :=
  match findPin s pinName with
  | none => s
  | some pin =>
    if linkedTypes.length = 0 then s
    else if isCaseValuePin pin then s
    else if (getDefaultOptionPinType s).category ≠ PC_Wildcard then s
    else
      let linkedType := linkedTypes.headD wildcardType
      let s1 := applyTypeToPin s .defaultOption linkedType
      let s2 := applyTypeToPin s1 .returnValue linkedType
      (getCasePinPairs s2).foldl
        (fun st pair => applyTypeToPin st pair.1.name linkedType) s2

/-- The loop at lines 139-146: remembers the (last) old pin named
"Default". -/
def findOldDefaultPin (oldPins : List Pin) : Option Pin :=
  oldPins.foldl (fun acc p => if p.name = .defaultOption then some p else acc) none

/-- Modelled from the spec: the base class ReallocatePinsDuringReconstruction
(not under src) recreates the case pin pairs fresh, one pair per option
pin found among the old pins. -/
def superReallocatePins (s : NodeState) (oldPins : List Pin) : NodeState :=
  let oldN := oldPins.countP (fun p => isOptionPin p)
  (List.range oldN).foldl (fun st i => addCasePinPair st i) s

/-- ReallocatePinsDuringReconstruction (lines 137-161): find the old
default pin by stable name, recreate default / return-value pins and the
case pairs, then copy the old default pin's type to the new default pin,
the new return-value pin, and every new option pin (types only, no
literal reset; condition pins are not type-copied). -/
def reallocatePinsDuringReconstruction (oldPins : List Pin) : NodeState :=
  let s := createDefaultOptionPin ⟨[]⟩
  let s := createReturnValuePin s
  let s := superReallocatePins s oldPins
  match findOldDefaultPin oldPins with
  | none => s
  | some oldDefault =>
    let s := setPinType s .defaultOption oldDefault.pinType
    let s := setPinType s .returnValue oldDefault.pinType
    (getCasePinPairs s).foldl
      (fun st pair => setPinType st pair.1.name oldDefault.pinType) s

/-- The reason text produced for a rejected execution-pin connection
(the source's localized text reads "Can't connect with Exec pin."; the
apostrophe is elided here). -/
def execDisallowedReason : String := "Cannot connect with Exec pin."

/-- IsConnectionDisallowed (lines 340-350): if the other pin exists and
its category is the execution category, report disallowed with the
reason text; otherwise return the superclass decision (a pair of the
disallow flag and the reason it produced). -/
def isConnectionDisallowed (myPin otherPin : Option Pin)
    (superResult : Bool × String) : Bool × String :=
  match otherPin with
  | some other =>
    if other.pinType.category = PC_Exec then (true, execDisallowedReason)
    else superResult
  | none => superResult

/-
Expansion engine (ExpandNode, lines 230-338).  The intermediate nodes
are engine primitives; their evaluation semantics are modelled from the
spec's contract for them:
  - Array_Find (UKismetArrayLibrary): smallest index of the item in the
    array, or the sentinel -1 when absent;
  - Select (UK2Node_Select) with integer index: the option at the index,
    implementation-defined out of range;
  - EqualEqual_IntInt (UKismetMathLibrary): integer equality;
  - Select with boolean index: false picks option 0, true picks option 1.
-/

/-- Modelled from the spec: the search primitive Array_Find returns the
smallest index `i` with `arr[i] == item`, or the sentinel -1. -/
def array_Find (arr : List Bool) (item : Bool) : Int :=
  match arr with
  | [] => -1
  | b :: rest =>
    if b = item then 0
    else
      let r := array_Find rest item
      if r = -1 then -1 else r + 1

/-- Modelled from the spec: an N-way Select primitive with an integer
index pin.  Out-of-range behavior is implementation-defined by the
underlying primitive and is represented by the `outOfRange` argument. -/
def selectInt {α : Type} (options : List α) (index : Int) (outOfRange : α) : α :=
  if 0 ≤ index ∧ index.toNat < options.length then options.getD index.toNat outOfRange
  else outOfRange

/-- Modelled from the spec: a 2-way Select primitive with a boolean
index pin: false picks the first option, true picks the second. -/
def selectBool {α : Type} (falseOption trueOption : α) (index : Bool) : α :=
  if index then trueOption else falseOption

/-- EqualEqual_IntInt. -/
def equalEqual_IntInt (a b : Int) : Bool := a == b

/-- Number of option input pins on the first intermediate Select node
(lines 247-253): AllocateDefaultPins creates two, then one AddInputPin
per case pair beyond the second. -/
def select1stOptionPinCount (numCasePairs : Nat) : Nat := 2 + (numCasePairs - 2)

/-- Number of option input pins on the second intermediate Select node
(lines 255-261): AllocateDefaultPins creates two, then one AddInputPin
per case pair beyond the second — the same loop as for the first Select. -/
def select2ndOptionPinCount (numCasePairs : Nat) : Nat := 2 + (numCasePairs - 2)

/-- Number of input pins on the intermediate Make Array node (lines
263-268): AllocateDefaultPins creates one, then one AddInputPin per case
pair beyond the first. -/
def makeArrayInputPinCount (numCasePairs : Nat) : Nat := 1 + (numCasePairs - 1)

/-- The value sequence feeding the first Select's option pins: the outer
option values on pins 0..N-1 (lines 283-288); option pins beyond the
case-pair count (present when N < 2) are left unlinked and carry an
unconstrained value. -/
def select1stInputs {α : Type} (options : List α) (numCasePairs : Nat)
    (unlinked : α) : List α :=
  options ++ List.replicate (select1stOptionPinCount numCasePairs - options.length) unlinked

/-- Evaluation of the primitive subgraph produced by ExpandNode on given
runtime values: `options` are the case option values (one per case
pair), `conditions` the case condition values, `defaultValue` the value
on the Default pin, `unlinked` the value of any unlinked intermediate
option pin.  Wiring (lines 282-335): Make Array collects the conditions;
Array_Find searches them for true; its result drives the first Select's
index and one side of EqualEqual_IntInt whose other side defaults to -1;
the comparison drives the second Select's boolean index, whose option 0
is the first Select's output and option 1 the Default value. -/
def expandedGraphEval {α : Type} (options : List α) (conditions : List Bool)
    (defaultValue unlinked : α) : α :=
  let found := array_Find conditions true
  let select1stOut := selectInt (select1stInputs options conditions.length unlinked) found unlinked
  selectBool select1stOut defaultValue (equalEqual_IntInt found (-1))

/-- The first indexing step of ExpandNode (line 234): the reference
option pin is case pair 0's option pin. -/
def expandNodeReferenceOptionPin (s : NodeState) : Option Pin :=
  ((getCasePinPairs s).head?).map (fun pair => pair.1)

/-
Canonical well-formed node states.  Reachable states always consist of
the default pin, a contiguous block of option pins, a contiguous block
of boolean condition pins, and the return-value pin; these families,
parameterized by the per-pin types and literal values, serve as the
hypotheses of the theorems below.
-/

/-- The block of option pins with case indices lo, lo+1, ..., lo+k-1. -/
def optionPinsSeg (lo k : Nat) (ty : Nat → PinType) (dv : Nat → String) : List Pin :=
  match k with
  | 0 => []
  | k' + 1 => ⟨.caseOption lo, .input, ty lo, dv lo⟩ :: optionPinsSeg (lo + 1) k' ty dv

/-- The block of boolean condition pins with case indices lo..lo+k-1. -/
def conditionPinsSeg (lo k : Nat) (dv : Nat → String) : List Pin :=
  match k with
  | 0 => []
  | k' + 1 => ⟨.caseCondition lo, .input, booleanType, dv lo⟩ :: conditionPinsSeg (lo + 1) k' dv

/-- The canonical node state with N case pairs: default pin (type dT,
literal dV), option pins (types oT, literals oV), boolean condition pins
(literals cV), return-value pin (type rT, literal rV). -/
def nodeOf (N : Nat) (dT : PinType) (dV : String) (oT : Nat → PinType)
    (oV : Nat → String) (cV : Nat → String) (rT : PinType) (rV : String) : NodeState :=
  ⟨⟨.defaultOption, .input, dT, dV⟩ ::
    (optionPinsSeg 0 N oT oV ++ (conditionPinsSeg 0 N cV ++ [⟨.returnValue, .output, rT, rV⟩]))⟩

/-- The pin name at ordinal position i. -/
def nthName : List Pin → Nat → Option PinName
  | [], _ => none
  | p :: _, 0 => some p.name
  | _ :: rest, i + 1 => nthName rest i

/-- The ordinal pin layout required by the spec: default pin at position
0, option pin i at position 1 + i, condition pin i at position N + 1 + i,
return-value pin at position 2 * N + 1, and nothing else. -/
def pinRoleLayout (s : NodeState) (N : Nat) : Prop :=
  s.pins.length = 2 * N + 2 ∧
  nthName s.pins 0 = some .defaultOption ∧
  (∀ i, i < N → nthName s.pins (1 + i) = some (.caseOption i)) ∧
  (∀ i, i < N → nthName s.pins (N + 1 + i) = some (.caseCondition i)) ∧
  nthName s.pins (2 * N + 1) = some .returnValue

instance (s : NodeState) (N : Nat) : Decidable (pinRoleLayout s N) := by
  unfold pinRoleLayout
  infer_instance

/- Generic list helper lemmas. -/

theorem insertAt_zero {α : Type} (l : List α) (a : α) : insertAt l 0 a = a :: l := by
  simp [insertAt]

theorem insertAt_cons {α : Type} (x : α) (l : List α) (i : Nat) (a : α) :
    insertAt (x :: l) (i + 1) a = x :: insertAt l i a := by
  simp [insertAt]

theorem insertAt_append_left {α : Type} (l₁ l₂ : List α) (a : α) :
    insertAt (l₁ ++ l₂) l₁.length a = l₁ ++ a :: l₂ := by
  simp [insertAt, List.take_left, List.drop_left]

theorem insertAt_append_right {α : Type} (l₁ l₂ : List α) (i : Nat) (a : α) :
    insertAt (l₁ ++ l₂) (l₁.length + i) a = l₁ ++ insertAt l₂ i a := by
  induction l₁ with
  | nil => simp
  | cons x xs ih =>
    have : (x :: xs).length + i = (xs.length + i) + 1 := by
      simp [List.length_cons]; omega
    rw [this, List.cons_append, insertAt_cons, ih, List.cons_append]

theorem find?_append_none {α : Type} (p : α → Bool) (l₁ l₂ : List α)
    (h : l₁.find? p = none) : (l₁ ++ l₂).find? p = l₂.find? p := by
  induction l₁ with
  | nil => simp
  | cons x xs ih =>
    by_cases hx : p x
    · rw [List.find?_cons_of_pos _ hx] at h
      exact absurd h (by simp)
    · rw [List.find?_cons_of_neg _ hx] at h
      rw [List.cons_append, List.find?_cons_of_neg _ hx]
      exact ih h

theorem find?_append_some {α : Type} (p : α → Bool) (l₁ l₂ : List α) (a : α)
    (h : l₁.find? p = some a) : (l₁ ++ l₂).find? p = some a := by
  induction l₁ with
  | nil => simp at h
  | cons x xs ih =>
    by_cases hx : p x
    · rw [List.find?_cons_of_pos _ hx] at h
      rw [List.cons_append, List.find?_cons_of_pos _ hx]
      exact h
    · rw [List.find?_cons_of_neg _ hx] at h
      rw [List.cons_append, List.find?_cons_of_neg _ hx]
      exact ih h

theorem filterMap_eq_map_of_some {α β : Type} (g : α → Option β) (f : α → β)
    (l : List α) (h : ∀ a ∈ l, g a = some (f a)) : l.filterMap g = l.map f := by
  induction l with
  | nil => simp
  | cons x xs ih =>
    rw [List.filterMap_cons, h x (by simp), List.map_cons,
      ih (fun a ha => h a (by simp [ha]))]

theorem nthName_append_left (l₁ l₂ : List Pin) (i : Nat) (h : i < l₁.length) :
    nthName (l₁ ++ l₂) i = nthName l₁ i := by
  induction l₁ generalizing i with
  | nil => simp at h
  | cons x xs ih =>
    cases i with
    | zero => simp [nthName]
    | succ j =>
      rw [List.cons_append]
      show nthName (xs ++ l₂) j = nthName (x :: xs) (j + 1)
      rw [ih j (by simp at h; omega)]
      rfl

theorem nthName_append_right (l₁ l₂ : List Pin) (i : Nat) :
    nthName (l₁ ++ l₂) (l₁.length + i) = nthName l₂ i := by
  induction l₁ with
  | nil => simp
  | cons x xs ih =>
    have : (x :: xs).length + i = (xs.length + i) + 1 := by
      simp [List.length_cons]; omega
    rw [this, List.cons_append]
    show nthName (xs ++ l₂) (xs.length + i) = nthName l₂ i
    exact ih

theorem getD_append_lt {α : Type} (l₁ l₂ : List α) (d : α) (i : Nat)
    (h : i < l₁.length) : (l₁ ++ l₂).getD i d = l₁.getD i d := by
  induction l₁ generalizing i with
  | nil => simp at h
  | cons x xs ih =>
    cases i with
    | zero => simp
    | succ j =>
      simp only [List.cons_append, List.getD_cons_succ]
      exact ih j (by simp at h; omega)

theorem getD_eq_get {α : Type} (l : List α) (d : α) (i : Nat) (h : i < l.length) :
    l.getD i d = l.get ⟨i, h⟩ := by
  induction l generalizing i with
  | nil => simp at h
  | cons x xs ih =>
    cases i with
    | zero => simp
    | succ j =>
      simp only [List.getD_cons_succ, List.get_cons_succ]
      exact ih j (by simp at h; omega)

/- Segment lemmas. -/

theorem optionPinsSeg_length (lo k : Nat) (ty : Nat → PinType) (dv : Nat → String) :
    (optionPinsSeg lo k ty dv).length = k := by
  induction k generalizing lo with
  | zero => rfl
  | succ k' ih => simp [optionPinsSeg, ih]

theorem conditionPinsSeg_length (lo k : Nat) (dv : Nat → String) :
    (conditionPinsSeg lo k dv).length = k := by
  induction k generalizing lo with
  | zero => rfl
  | succ k' ih => simp [conditionPinsSeg, ih]

theorem optionPinsSeg_countP_option (lo k : Nat) (ty : Nat → PinType) (dv : Nat → String) :
    (optionPinsSeg lo k ty dv).countP (fun p => isOptionPin p) = k := by
  induction k generalizing lo with
  | zero => rfl
  | succ k' ih =>
    rw [optionPinsSeg, List.countP_cons, ih (lo + 1)]
    norm_num
    rfl

theorem conditionPinsSeg_countP_option (lo k : Nat) (dv : Nat → String) :
    (conditionPinsSeg lo k dv).countP (fun p => isOptionPin p) = 0 := by
  induction k generalizing lo with
  | zero => rfl
  | succ k' ih =>
    rw [conditionPinsSeg, List.countP_cons, ih (lo + 1)]
    norm_num
    rfl

theorem nodeOf_casePinCount (N : Nat) (dT : PinType) (dV : String) (oT : Nat → PinType)
    (oV : Nat → String) (cV : Nat → String) (rT : PinType) (rV : String) :
    getCasePinCount (nodeOf N dT dV oT oV cV rT rV) = N := by
  unfold getCasePinCount nodeOf
  rw [List.countP_cons, List.countP_append, List.countP_append,
    optionPinsSeg_countP_option, conditionPinsSeg_countP_option]
  norm_num
  rfl

theorem optionPinsSeg_nthName (lo k j : Nat) (ty : Nat → PinType) (dv : Nat → String)
    (h : j < k) : nthName (optionPinsSeg lo k ty dv) j = some (.caseOption (lo + j)) := by
  induction k generalizing lo j with
  | zero => omega
  | succ k' ih =>
    cases j with
    | zero => simp [optionPinsSeg, nthName]
    | succ j' =>
      show nthName (optionPinsSeg (lo + 1) k' ty dv) j' = _
      rw [ih (lo + 1) j' (by omega)]
      congr 2
      omega

theorem conditionPinsSeg_nthName (lo k j : Nat) (dv : Nat → String)
    (h : j < k) : nthName (conditionPinsSeg lo k dv) j = some (.caseCondition (lo + j)) := by
  induction k generalizing lo j with
  | zero => omega
  | succ k' ih =>
    cases j with
    | zero => simp [conditionPinsSeg, nthName]
    | succ j' =>
      show nthName (conditionPinsSeg (lo + 1) k' dv) j' = _
      rw [ih (lo + 1) j' (by omega)]
      congr 2
      omega

theorem optionPinsSeg_find?_none (lo k : Nat) (ty : Nat → PinType) (dv : Nat → String)
    (n : PinName) (hn : ∀ i, n ≠ .caseOption i) :
    (optionPinsSeg lo k ty dv).find? (fun p => decide (p.name = n)) = none := by
  induction k generalizing lo with
  | zero => rfl
  | succ k' ih =>
    rw [optionPinsSeg, List.find?_cons_of_neg, ih]
    simp
    exact fun h => (hn lo h.symm).elim

theorem conditionPinsSeg_find?_none (lo k : Nat) (dv : Nat → String)
    (n : PinName) (hn : ∀ i, n ≠ .caseCondition i) :
    (conditionPinsSeg lo k dv).find? (fun p => decide (p.name = n)) = none := by
  induction k generalizing lo with
  | zero => rfl
  | succ k' ih =>
    rw [conditionPinsSeg, List.find?_cons_of_neg, ih]
    simp
    exact fun h => (hn lo h.symm).elim

theorem optionPinsSeg_find?_some (lo k j : Nat) (ty : Nat → PinType) (dv : Nat → String)
    (hlo : lo ≤ j) (hj : j < lo + k) :
    (optionPinsSeg lo k ty dv).find? (fun p => decide (p.name = .caseOption j)) =
      some ⟨.caseOption j, .input, ty j, dv j⟩ := by
  induction k generalizing lo with
  | zero => omega
  | succ k' ih =>
    by_cases he : lo = j
    · subst he
      rw [optionPinsSeg, List.find?_cons_of_pos] <;> simp
    · rw [optionPinsSeg, List.find?_cons_of_neg]
      · exact ih (lo + 1) (by omega) (by omega)
      · simp
        exact fun h => he h

theorem conditionPinsSeg_find?_some (lo k j : Nat) (dv : Nat → String)
    (hlo : lo ≤ j) (hj : j < lo + k) :
    (conditionPinsSeg lo k dv).find? (fun p => decide (p.name = .caseCondition j)) =
      some ⟨.caseCondition j, .input, booleanType, dv j⟩ := by
  induction k generalizing lo with
  | zero => omega
  | succ k' ih =>
    by_cases he : lo = j
    · subst he
      rw [conditionPinsSeg, List.find?_cons_of_pos] <;> simp
    · rw [conditionPinsSeg, List.find?_cons_of_neg]
      · exact ih (lo + 1) (by omega) (by omega)
      · simp
        exact fun h => he h

theorem optionPinsSeg_congr (lo k : Nat) (ty ty₂ : Nat → PinType) (dv dv₂ : Nat → String)
    (hty : ∀ i, lo ≤ i → i < lo + k → ty i = ty₂ i)
    (hdv : ∀ i, lo ≤ i → i < lo + k → dv i = dv₂ i) :
    optionPinsSeg lo k ty dv = optionPinsSeg lo k ty₂ dv₂ := by
  induction k generalizing lo with
  | zero => rfl
  | succ k' ih =>
    rw [optionPinsSeg, optionPinsSeg, hty lo (by omega) (by omega),
      hdv lo (by omega) (by omega),
      ih (lo + 1) (fun i h1 h2 => hty i (by omega) (by omega))
        (fun i h1 h2 => hdv i (by omega) (by omega))]

theorem conditionPinsSeg_congr (lo k : Nat) (dv dv₂ : Nat → String)
    (hdv : ∀ i, lo ≤ i → i < lo + k → dv i = dv₂ i) :
    conditionPinsSeg lo k dv = conditionPinsSeg lo k dv₂ := by
  induction k generalizing lo with
  | zero => rfl
  | succ k' ih =>
    rw [conditionPinsSeg, conditionPinsSeg, hdv lo (by omega) (by omega),
      ih (lo + 1) (fun i h1 h2 => hdv i (by omega) (by omega))]

theorem nodeOf_congr (N : Nat) (dT : PinType) (dV : String) (oT oT₂ : Nat → PinType)
    (oV oV₂ : Nat → String) (cV cV₂ : Nat → String) (rT : PinType) (rV : String)
    (hoT : ∀ i, i < N → oT i = oT₂ i) (hoV : ∀ i, i < N → oV i = oV₂ i)
    (hcV : ∀ i, i < N → cV i = cV₂ i) :
    nodeOf N dT dV oT oV cV rT rV = nodeOf N dT dV oT₂ oV₂ cV₂ rT rV := by
  unfold nodeOf
  rw [optionPinsSeg_congr 0 N oT oT₂ oV oV₂
      (fun i h1 h2 => hoT i (by omega)) (fun i h1 h2 => hoV i (by omega)),
    conditionPinsSeg_congr 0 N cV cV₂ (fun i h1 h2 => hcV i (by omega))]

theorem optionPinsSeg_snoc (lo k : Nat) (ty : Nat → PinType) (dv : Nat → String)
    (T : PinType) (V : String) :
    optionPinsSeg lo k ty dv ++ [⟨.caseOption (lo + k), .input, T, V⟩] =
      optionPinsSeg lo (k + 1) (fun i => if i = lo + k then T else ty i)
        (fun i => if i = lo + k then V else dv i) := by
  induction k generalizing lo with
  | zero => simp [optionPinsSeg]
  | succ k' ih =>
    rw [optionPinsSeg, List.cons_append]
    have h1 : lo + (k' + 1) = (lo + 1) + k' := by omega
    rw [show (optionPinsSeg lo (k' + 1 + 1) (fun i => if i = lo + (k' + 1) then T else ty i)
        (fun i => if i = lo + (k' + 1) then V else dv i)) =
      ⟨.caseOption lo, .input,
        (if lo = lo + (k' + 1) then T else ty lo),
        (if lo = lo + (k' + 1) then V else dv lo)⟩ ::
      optionPinsSeg (lo + 1) (k' + 1) (fun i => if i = lo + (k' + 1) then T else ty i)
        (fun i => if i = lo + (k' + 1) then V else dv i) from rfl]
    rw [if_neg (by omega), if_neg (by omega), h1, ih (lo + 1)]

theorem conditionPinsSeg_snoc (lo k : Nat) (dv : Nat → String) (V : String) :
    conditionPinsSeg lo k dv ++ [⟨.caseCondition (lo + k), .input, booleanType, V⟩] =
      conditionPinsSeg lo (k + 1) (fun i => if i = lo + k then V else dv i) := by
  induction k generalizing lo with
  | zero => simp [conditionPinsSeg]
  | succ k' ih =>
    rw [conditionPinsSeg, List.cons_append]
    have h1 : lo + (k' + 1) = (lo + 1) + k' := by omega
    rw [show (conditionPinsSeg lo (k' + 1 + 1) (fun i => if i = lo + (k' + 1) then V else dv i)) =
      ⟨.caseCondition lo, .input, booleanType,
        (if lo = lo + (k' + 1) then V else dv lo)⟩ ::
      conditionPinsSeg (lo + 1) (k' + 1) (fun i => if i = lo + (k' + 1) then V else dv i) from rfl]
    rw [if_neg (by omega), h1, ih (lo + 1)]

/- findPin on canonical states. -/

theorem findPin_nodeOf_defaultOption (N : Nat) (dT : PinType) (dV : String)
    (oT : Nat → PinType) (oV cV : Nat → String) (rT : PinType) (rV : String) :
    findPin (nodeOf N dT dV oT oV cV rT rV) .defaultOption =
      some ⟨.defaultOption, .input, dT, dV⟩ := by
  unfold findPin nodeOf
  rw [List.find?_cons_of_pos] <;> simp

theorem findPin_nodeOf_returnValue (N : Nat) (dT : PinType) (dV : String)
    (oT : Nat → PinType) (oV cV : Nat → String) (rT : PinType) (rV : String) :
    findPin (nodeOf N dT dV oT oV cV rT rV) .returnValue =
      some ⟨.returnValue, .output, rT, rV⟩ := by
  unfold findPin nodeOf
  rw [List.find?_cons_of_neg _ (by simp)]
  rw [find?_append_none _ _ _ (optionPinsSeg_find?_none 0 N oT oV _ (by intro i; simp))]
  rw [find?_append_none _ _ _ (conditionPinsSeg_find?_none 0 N cV _ (by intro i; simp))]
  rw [List.find?_cons_of_pos] <;> simp

theorem findPin_nodeOf_caseOption (N : Nat) (dT : PinType) (dV : String)
    (oT : Nat → PinType) (oV cV : Nat → String) (rT : PinType) (rV : String)
    (j : Nat) (hj : j < N) :
    findPin (nodeOf N dT dV oT oV cV rT rV) (.caseOption j) =
      some ⟨.caseOption j, .input, oT j, oV j⟩ := by
  unfold findPin nodeOf
  rw [List.find?_cons_of_neg _ (by simp)]
  exact find?_append_some _ _ _ _
    (optionPinsSeg_find?_some 0 N j oT oV (by omega) (by omega))

theorem findPin_nodeOf_caseCondition (N : Nat) (dT : PinType) (dV : String)
    (oT : Nat → PinType) (oV cV : Nat → String) (rT : PinType) (rV : String)
    (j : Nat) (hj : j < N) :
    findPin (nodeOf N dT dV oT oV cV rT rV) (.caseCondition j) =
      some ⟨.caseCondition j, .input, booleanType, cV j⟩ := by
  unfold findPin nodeOf
  rw [List.find?_cons_of_neg _ (by simp)]
  rw [find?_append_none _ _ _ (optionPinsSeg_find?_none 0 N oT oV _ (by intro i; simp))]
  exact find?_append_some _ _ _ _
    (conditionPinsSeg_find?_some 0 N j cV (by omega) (by omega))

theorem getDefaultOptionPinType_nodeOf (N : Nat) (dT : PinType) (dV : String)
    (oT : Nat → PinType) (oV cV : Nat → String) (rT : PinType) (rV : String) :
    getDefaultOptionPinType (nodeOf N dT dV oT oV cV rT rV) = dT := by
  unfold getDefaultOptionPinType
  rw [findPin_nodeOf_defaultOption]

/- Guarded updates on canonical states. -/

theorem pin_eta_of_preserve (h : Pin → Pin)
    (hn : ∀ p, (h p).name = p.name) (hd : ∀ p, (h p).direction = p.direction)
    (p : Pin) : h p = ⟨p.name, p.direction, (h p).pinType, (h p).defaultValue⟩ := by
  have h1 := hn p
  have h2 := hd p
  cases hq : h p with
  | mk nm dir t v =>
    rw [hq] at h1 h2
    simp at h1 h2
    simp [h1, h2]

theorem optionPinsSeg_map_updatePin_other (lo k : Nat) (ty : Nat → PinType)
    (dv : Nat → String) (n : PinName) (hne : ∀ i, n ≠ .caseOption i) (h : Pin → Pin) :
    (optionPinsSeg lo k ty dv).map (updatePin n h) = optionPinsSeg lo k ty dv := by
  induction k generalizing lo with
  | zero => rfl
  | succ k' ih =>
    rw [optionPinsSeg, List.map_cons, updatePin, if_neg (fun he => (hne lo he.symm).elim),
      ih (lo + 1)]

theorem conditionPinsSeg_map_updatePin_other (lo k : Nat) (dv : Nat → String)
    (n : PinName) (hne : ∀ i, n ≠ .caseCondition i) (h : Pin → Pin) :
    (conditionPinsSeg lo k dv).map (updatePin n h) = conditionPinsSeg lo k dv := by
  induction k generalizing lo with
  | zero => rfl
  | succ k' ih =>
    rw [conditionPinsSeg, List.map_cons, updatePin, if_neg (fun he => (hne lo he.symm).elim),
      ih (lo + 1)]

theorem optionPinsSeg_map_updatePin_caseOption (lo k j : Nat) (ty : Nat → PinType)
    (dv : Nat → String) (h : Pin → Pin)
    (hn : ∀ p, (h p).name = p.name) (hd : ∀ p, (h p).direction = p.direction) :
    (optionPinsSeg lo k ty dv).map (updatePin (.caseOption j) h) =
      optionPinsSeg lo k
        (fun i => if i = j then (h ⟨.caseOption j, .input, ty j, dv j⟩).pinType else ty i)
        (fun i => if i = j then (h ⟨.caseOption j, .input, ty j, dv j⟩).defaultValue else dv i) := by
  induction k generalizing lo with
  | zero => rfl
  | succ k' ih =>
    simp only [optionPinsSeg, List.map_cons]
    rw [ih (lo + 1)]
    congr 1
    by_cases he : lo = j
    · subst he
      rw [if_pos rfl, if_pos rfl, updatePin, if_pos rfl]
      exact pin_eta_of_preserve h hn hd _
    · rw [if_neg he, if_neg he, updatePin, if_neg (by simp [he])]

theorem mapPins_nodeOf_defaultOption (N : Nat) (dT : PinType) (dV : String)
    (oT : Nat → PinType) (oV cV : Nat → String) (rT : PinType) (rV : String)
    (h : Pin → Pin) (hn : ∀ p, (h p).name = p.name)
    (hd : ∀ p, (h p).direction = p.direction) :
    mapPins (nodeOf N dT dV oT oV cV rT rV) .defaultOption h =
      nodeOf N (h ⟨.defaultOption, .input, dT, dV⟩).pinType
        (h ⟨.defaultOption, .input, dT, dV⟩).defaultValue oT oV cV rT rV := by
  unfold mapPins nodeOf
  rw [List.map_cons, List.map_append, List.map_append,
    optionPinsSeg_map_updatePin_other 0 N oT oV _ (by intro i; simp) h,
    conditionPinsSeg_map_updatePin_other 0 N cV _ (by intro i; simp) h]
  have hh : updatePin .defaultOption h ⟨.defaultOption, .input, dT, dV⟩ =
      (⟨.defaultOption, .input, (h ⟨.defaultOption, .input, dT, dV⟩).pinType,
        (h ⟨.defaultOption, .input, dT, dV⟩).defaultValue⟩ : Pin) := by
    rw [updatePin, if_pos rfl]
    exact pin_eta_of_preserve h hn hd _
  rw [hh]
  simp [updatePin]

theorem mapPins_nodeOf_returnValue (N : Nat) (dT : PinType) (dV : String)
    (oT : Nat → PinType) (oV cV : Nat → String) (rT : PinType) (rV : String)
    (h : Pin → Pin) (hn : ∀ p, (h p).name = p.name)
    (hd : ∀ p, (h p).direction = p.direction) :
    mapPins (nodeOf N dT dV oT oV cV rT rV) .returnValue h =
      nodeOf N dT dV oT oV cV (h ⟨.returnValue, .output, rT, rV⟩).pinType
        (h ⟨.returnValue, .output, rT, rV⟩).defaultValue := by
  unfold mapPins nodeOf
  rw [List.map_cons, List.map_append, List.map_append,
    optionPinsSeg_map_updatePin_other 0 N oT oV _ (by intro i; simp) h,
    conditionPinsSeg_map_updatePin_other 0 N cV _ (by intro i; simp) h]
  have hh : updatePin .returnValue h ⟨.returnValue, .output, rT, rV⟩ =
      (⟨.returnValue, .output, (h ⟨.returnValue, .output, rT, rV⟩).pinType,
        (h ⟨.returnValue, .output, rT, rV⟩).defaultValue⟩ : Pin) := by
    rw [updatePin, if_pos rfl]
    exact pin_eta_of_preserve h hn hd _
  simp only [List.map_cons, List.map_nil]
  rw [hh]
  simp [updatePin]

theorem mapPins_nodeOf_caseOption (N : Nat) (dT : PinType) (dV : String)
    (oT : Nat → PinType) (oV cV : Nat → String) (rT : PinType) (rV : String)
    (j : Nat) (h : Pin → Pin) (hn : ∀ p, (h p).name = p.name)
    (hd : ∀ p, (h p).direction = p.direction) :
    mapPins (nodeOf N dT dV oT oV cV rT rV) (.caseOption j) h =
      nodeOf N dT dV
        (fun i => if i = j then (h ⟨.caseOption j, .input, oT j, oV j⟩).pinType else oT i)
        (fun i => if i = j then (h ⟨.caseOption j, .input, oT j, oV j⟩).defaultValue else oV i)
        cV rT rV := by
  unfold mapPins nodeOf
  rw [List.map_cons, List.map_append, List.map_append,
    optionPinsSeg_map_updatePin_caseOption 0 N j oT oV h hn hd,
    conditionPinsSeg_map_updatePin_other 0 N cV _ (by intro i; simp) h]
  simp [updatePin]

/- setPinType / applyTypeToPin on canonical states. -/

theorem setPinType_nodeOf_defaultOption (N : Nat) (dT : PinType) (dV : String)
    (oT : Nat → PinType) (oV cV : Nat → String) (rT : PinType) (rV : String) (t : PinType) :
    setPinType (nodeOf N dT dV oT oV cV rT rV) .defaultOption t =
      nodeOf N t dV oT oV cV rT rV := by
  unfold setPinType
  rw [mapPins_nodeOf_defaultOption N dT dV oT oV cV rT rV
    (fun p => ⟨p.name, p.direction, t, p.defaultValue⟩) (fun p => rfl) (fun p => rfl)]

theorem setPinType_nodeOf_returnValue (N : Nat) (dT : PinType) (dV : String)
    (oT : Nat → PinType) (oV cV : Nat → String) (rT : PinType) (rV : String) (t : PinType) :
    setPinType (nodeOf N dT dV oT oV cV rT rV) .returnValue t =
      nodeOf N dT dV oT oV cV t rV := by
  unfold setPinType
  rw [mapPins_nodeOf_returnValue N dT dV oT oV cV rT rV
    (fun p => ⟨p.name, p.direction, t, p.defaultValue⟩) (fun p => rfl) (fun p => rfl)]

theorem setPinType_nodeOf_caseOption (N : Nat) (dT : PinType) (dV : String)
    (oT : Nat → PinType) (oV cV : Nat → String) (rT : PinType) (rV : String)
    (j : Nat) (t : PinType) :
    setPinType (nodeOf N dT dV oT oV cV rT rV) (.caseOption j) t =
      nodeOf N dT dV (fun i => if i = j then t else oT i)
        (fun i => if i = j then oV j else oV i) cV rT rV := by
  unfold setPinType
  rw [mapPins_nodeOf_caseOption N dT dV oT oV cV rT rV j
    (fun p => ⟨p.name, p.direction, t, p.defaultValue⟩) (fun p => rfl) (fun p => rfl)]

theorem applyTypeToPin_nodeOf_defaultOption (N : Nat) (dT : PinType) (dV : String)
    (oT : Nat → PinType) (oV cV : Nat → String) (rT : PinType) (rV : String) (t : PinType) :
    applyTypeToPin (nodeOf N dT dV oT oV cV rT rV) .defaultOption t =
      nodeOf N t (autogeneratedDefaultValue t) oT oV cV rT rV := by
  unfold applyTypeToPin resetPinToAutogeneratedDefaultValue
  rw [setPinType_nodeOf_defaultOption,
    mapPins_nodeOf_defaultOption N t dV oT oV cV rT rV
      (fun p => ⟨p.name, p.direction, p.pinType, autogeneratedDefaultValue p.pinType⟩)
      (fun p => rfl) (fun p => rfl)]

theorem applyTypeToPin_nodeOf_returnValue (N : Nat) (dT : PinType) (dV : String)
    (oT : Nat → PinType) (oV cV : Nat → String) (rT : PinType) (rV : String) (t : PinType) :
    applyTypeToPin (nodeOf N dT dV oT oV cV rT rV) .returnValue t =
      nodeOf N dT dV oT oV cV t (autogeneratedDefaultValue t) := by
  unfold applyTypeToPin resetPinToAutogeneratedDefaultValue
  rw [setPinType_nodeOf_returnValue,
    mapPins_nodeOf_returnValue N dT dV oT oV cV t rV
      (fun p => ⟨p.name, p.direction, p.pinType, autogeneratedDefaultValue p.pinType⟩)
      (fun p => rfl) (fun p => rfl)]

theorem applyTypeToPin_nodeOf_caseOption (N : Nat) (dT : PinType) (dV : String)
    (oT : Nat → PinType) (oV cV : Nat → String) (rT : PinType) (rV : String)
    (j : Nat) (t : PinType) :
    applyTypeToPin (nodeOf N dT dV oT oV cV rT rV) (.caseOption j) t =
      nodeOf N dT dV (fun i => if i = j then t else oT i)
        (fun i => if i = j then autogeneratedDefaultValue t else oV i) cV rT rV := by
  unfold applyTypeToPin resetPinToAutogeneratedDefaultValue
  rw [setPinType_nodeOf_caseOption,
    mapPins_nodeOf_caseOption N dT dV (fun i => if i = j then t else oT i)
      (fun i => if i = j then oV j else oV i) cV rT rV j
      (fun p => ⟨p.name, p.direction, p.pinType, autogeneratedDefaultValue p.pinType⟩)
      (fun p => rfl) (fun p => rfl)]
  apply nodeOf_congr
  · intro i hi
    by_cases he : i = j <;> simp [he]
  · intro i hi
    by_cases he : i = j <;> simp [he]
  · intro i hi
    rfl

/- AddCasePinPair on canonical states (appending the next case pair). -/

theorem addCasePinPair_nodeOf (N : Nat) (dT : PinType) (dV : String)
    (oT : Nat → PinType) (oV cV : Nat → String) (rT : PinType) (rV : String) :
    addCasePinPair (nodeOf N dT dV oT oV cV rT rV) N =
      nodeOf (N + 1) dT dV (fun i => if i = N then dT else oT i)
        (fun i => if i = N then "" else oV i)
        (fun i => if i = N then "" else cV i) rT rV := by
  simp only [addCasePinPair]
  rw [nodeOf_casePinCount, getDefaultOptionPinType_nodeOf]
  have hlen : N = (optionPinsSeg 0 N oT oV).length := (optionPinsSeg_length 0 N oT oV).symm
  have h1 : insertAt (nodeOf N dT dV oT oV cV rT rV).pins (1 + N)
      ⟨.caseOption N, .input, dT, ""⟩ =
      (⟨.defaultOption, .input, dT, dV⟩ :
        Pin) :: (optionPinsSeg 0 N oT oV ++
          (⟨.caseOption N, .input, dT, ""⟩ :
            Pin) :: (conditionPinsSeg 0 N cV ++ [⟨.returnValue, .output, rT, rV⟩])) := by
    show insertAt (⟨.defaultOption, .input, dT, dV⟩ ::
      (optionPinsSeg 0 N oT oV ++
        (conditionPinsSeg 0 N cV ++ [⟨.returnValue, .output, rT, rV⟩]))) (1 + N) _ = _
    rw [show 1 + N = N + 1 from by omega, insertAt_cons]
    rw [show (insertAt (optionPinsSeg 0 N oT oV ++
        (conditionPinsSeg 0 N cV ++ [⟨.returnValue, .output, rT, rV⟩])) N
        ⟨.caseOption N, .input, dT, ""⟩) =
      (insertAt (optionPinsSeg 0 N oT oV ++
        (conditionPinsSeg 0 N cV ++ [⟨.returnValue, .output, rT, rV⟩]))
        (optionPinsSeg 0 N oT oV).length ⟨.caseOption N, .input, dT, ""⟩) from by rw [← hlen]]
    rw [insertAt_append_left]
  rw [h1]
  have h2 := optionPinsSeg_snoc 0 N oT oV dT ""
  rw [Nat.zero_add] at h2
  have h3 := conditionPinsSeg_snoc 0 N cV ""
  rw [Nat.zero_add] at h3
  rw [List.append_cons (optionPinsSeg 0 N oT oV) ⟨.caseOption N, .input, dT, ""⟩, h2]
  rw [show N + 2 + N = ((N + 1) + N) + 1 from by omega, insertAt_cons]
  have hlen2 : N + 1 = (optionPinsSeg 0 (N + 1) (fun i => if i = N then dT else oT i)
      (fun i => if i = N then "" else oV i)).length :=
    (optionPinsSeg_length 0 (N + 1) _ _).symm
  rw [show ((N + 1) + N) = (optionPinsSeg 0 (N + 1) (fun i => if i = N then dT else oT i)
      (fun i => if i = N then "" else oV i)).length + N from by rw [← hlen2]]
  rw [insertAt_append_right]
  have hlen3 : N = (conditionPinsSeg 0 N cV).length := (conditionPinsSeg_length 0 N cV).symm
  rw [show (insertAt (conditionPinsSeg 0 N cV ++ [⟨.returnValue, .output, rT, rV⟩]) N
      ⟨.caseCondition N, .input, booleanType, ""⟩) =
    (insertAt (conditionPinsSeg 0 N cV ++ [⟨.returnValue, .output, rT, rV⟩])
      (conditionPinsSeg 0 N cV).length ⟨.caseCondition N, .input, booleanType, ""⟩) from by
        rw [← hlen3]]
  rw [insertAt_append_left, List.append_cons (conditionPinsSeg 0 N cV)
    ⟨.caseCondition N, .input, booleanType, ""⟩, h3]
  rfl

/- getCasePinPairs on canonical states. -/

theorem getCasePinPairs_nodeOf (N : Nat) (dT : PinType) (dV : String)
    (oT : Nat → PinType) (oV cV : Nat → String) (rT : PinType) (rV : String) :
    getCasePinPairs (nodeOf N dT dV oT oV cV rT rV) =
      (List.range N).map (fun i =>
        (⟨.caseOption i, .input, oT i, oV i⟩, ⟨.caseCondition i, .input, booleanType, cV i⟩)) := by
  unfold getCasePinPairs
  rw [nodeOf_casePinCount]
  apply filterMap_eq_map_of_some
  intro i hi
  rw [List.mem_range] at hi
  rw [findPin_nodeOf_caseOption N dT dV oT oV cV rT rV i hi,
    findPin_nodeOf_caseCondition N dT dV oT oV cV rT rV i hi]

/- Folding the per-option unification step over all case indices. -/

theorem foldl_applyTypeToPin_range (N : Nat) (dT : PinType) (dV : String)
    (oT : Nat → PinType) (oV cV : Nat → String) (rT : PinType) (rV : String)
    (t : PinType) (k : Nat) :
    (List.range k).foldl (fun st i => applyTypeToPin st (.caseOption i) t)
        (nodeOf N dT dV oT oV cV rT rV) =
      nodeOf N dT dV (fun i => if i < k then t else oT i)
        (fun i => if i < k then autogeneratedDefaultValue t else oV i) cV rT rV := by
  induction k with
  | zero =>
    simp only [List.range_zero, List.foldl_nil]
    exact nodeOf_congr N dT dV _ _ _ _ cV cV rT rV
      (fun i hi => by simp) (fun i hi => by simp) (fun i hi => rfl)
  | succ k' ih =>
    rw [List.range_succ, List.foldl_append, ih, List.foldl_cons, List.foldl_nil,
      applyTypeToPin_nodeOf_caseOption]
    apply nodeOf_congr
    · intro i hi
      by_cases he : i = k'
      · subst he
        rw [if_pos rfl, if_pos (by omega)]
      · by_cases hlt : i < k'
        · rw [if_neg he, if_pos hlt, if_pos (by omega)]
        · rw [if_neg he, if_neg hlt, if_neg (by omega)]
    · intro i hi
      by_cases he : i = k'
      · subst he
        rw [if_pos rfl, if_pos (by omega)]
      · by_cases hlt : i < k'
        · rw [if_neg he, if_pos hlt, if_pos (by omega)]
        · rw [if_neg he, if_neg hlt, if_neg (by omega)]
    · intro i hi
      rfl

/- The master lemma for the type-unification pass on canonical states. -/

theorem pinConnectionListChanged_nodeOf_fixes (N : Nat) (dT : PinType) (dV : String)
    (oT : Nat → PinType) (oV cV : Nat → String) (rT : PinType) (rV : String)
    (n : PinName) (t : PinType) (rest : List PinType)
    (hw : dT.category = PC_Wildcard)
    (hn : n = .defaultOption ∨ n = .returnValue ∨ ∃ j, j < N ∧ n = .caseOption j) :
    pinConnectionListChanged (nodeOf N dT dV oT oV cV rT rV) n (t :: rest) =
      nodeOf N t (autogeneratedDefaultValue t) (fun _ => t)
        (fun _ => autogeneratedDefaultValue t) cV t (autogeneratedDefaultValue t) := by
  have hcore : ∀ pin : Pin, findPin (nodeOf N dT dV oT oV cV rT rV) n = some pin →
      isCaseValuePin pin = false →
      pinConnectionListChanged (nodeOf N dT dV oT oV cV rT rV) n (t :: rest) =
        nodeOf N t (autogeneratedDefaultValue t) (fun _ => t)
          (fun _ => autogeneratedDefaultValue t) cV t (autogeneratedDefaultValue t) := by
    intro pin hf hcv
    unfold pinConnectionListChanged
    rw [hf]
    dsimp only
    rw [if_neg (show ¬(t :: rest).length = 0 by simp),
      if_neg (show ¬isCaseValuePin pin = true by simp [hcv]),
      if_neg (show ¬(getDefaultOptionPinType (nodeOf N dT dV oT oV cV rT rV)).category ≠
        PC_Wildcard by simp [getDefaultOptionPinType_nodeOf, hw])]
    simp only [List.headD_cons]
    rw [applyTypeToPin_nodeOf_defaultOption, applyTypeToPin_nodeOf_returnValue,
      getCasePinPairs_nodeOf, List.foldl_map]
    exact (foldl_applyTypeToPin_range N t (autogeneratedDefaultValue t) oT oV cV t
      (autogeneratedDefaultValue t) t N).trans
      (nodeOf_congr N t (autogeneratedDefaultValue t) _ _ _ _ cV cV t
        (autogeneratedDefaultValue t) (fun i hi => by simp [hi]) (fun i hi => by simp [hi])
        (fun i hi => rfl))
  rcases hn with h | h | ⟨j, hj, h⟩
  · subst h
    exact hcore _ (findPin_nodeOf_defaultOption N dT dV oT oV cV rT rV) rfl
  · subst h
    exact hcore _ (findPin_nodeOf_returnValue N dT dV oT oV cV rT rV) rfl
  · subst h
    exact hcore _ (findPin_nodeOf_caseOption N dT dV oT oV cV rT rV j hj) rfl

/- Properties of the search primitive. -/

theorem array_Find_cons (b : Bool) (rest : List Bool) (item : Bool) :
    array_Find (b :: rest) item =
      if b = item then 0
      else if array_Find rest item = -1 then -1 else array_Find rest item + 1 := rfl

theorem array_Find_ge_neg_one (xs : List Bool) (item : Bool) :
    -1 ≤ array_Find xs item := by
  induction xs with
  | nil => simp [array_Find]
  | cons b rest ih =>
    rw [array_Find_cons]
    by_cases hb : b = item
    · rw [if_pos hb]
      omega
    · rw [if_neg hb]
      by_cases hr : array_Find rest item = -1
      · rw [if_pos hr]
      · rw [if_neg hr]
        omega

theorem array_Find_eq_neg_one_iff (xs : List Bool) :
    array_Find xs true = -1 ↔ ∀ i, i < xs.length → xs.getD i false = false := by
  induction xs with
  | nil => simp [array_Find]
  | cons b rest ih =>
    rw [array_Find_cons]
    by_cases hb : b = true
    · rw [if_pos hb]
      constructor
      · intro h
        exact absurd h (by decide)
      · intro h
        have h0 := h 0 (by simp)
        rw [List.getD_cons_zero] at h0
        rw [hb] at h0
        exact absurd h0 (by decide)
    · rw [if_neg hb]
      have hb2 : b = false := by
        cases b
        · rfl
        · exact absurd rfl hb
      by_cases hr : array_Find rest true = -1
      · rw [if_pos hr]
        constructor
        · intro _ i hi
          cases i with
          | zero => simp [hb2]
          | succ i' =>
            rw [List.getD_cons_succ]
            exact ih.mp hr i' (by simp at hi; omega)
        · intro _
          rfl
      · rw [if_neg hr]
        constructor
        · intro habs
          have := array_Find_ge_neg_one rest true
          omega
        · intro hall
          exfalso
          apply hr
          rw [ih]
          intro i hi
          have := hall (i + 1) (by simp; omega)
          rw [List.getD_cons_succ] at this
          exact this

theorem array_Find_of_least (xs : List Bool) (i : Nat) (hi : i < xs.length)
    (hT : xs.getD i false = true) (hL : ∀ j, j < i → xs.getD j false = false) :
    array_Find xs true = i := by
  induction xs generalizing i with
  | nil => simp at hi
  | cons b rest ih =>
    cases i with
    | zero =>
      rw [List.getD_cons_zero] at hT
      rw [array_Find_cons, if_pos hT]
      rfl
    | succ i' =>
      rw [List.getD_cons_succ] at hT
      have hb : b = false := by
        have := hL 0 (by omega)
        rw [List.getD_cons_zero] at this
        exact this
      have hrest : array_Find rest true = i' := by
        apply ih i' (by simp at hi; omega) hT
        intro j hj
        have := hL (j + 1) (by omega)
        rw [List.getD_cons_succ] at this
        exact this
      rw [array_Find_cons, if_neg (by simp [hb]), hrest, if_neg (by omega)]
      push_cast
      ring

theorem selectInt_natCast {α : Type} (l : List α) (i : Nat) (u : α)
    (h : i < l.length) : selectInt l (i : Int) u = l.getD i u := by
  unfold selectInt
  rw [if_pos ⟨Int.natCast_nonneg i, by simpa using h⟩]
  simp

/-- Claim C1: for every N ≥ 1 and every assignment of boolean values to the
N condition inputs, the primitive subgraph produced by the expansion
(Make Array of the N conditions, Array_Find of true, first Select over the
options indexed by the find result, integer equality of the find result
with -1 feeding a second Select between the first Select's output and the
default value) evaluates to options[i] for the smallest i with
conditions[i] true, and to the default value when every condition is
false — for any out-of-range behavior of the first Select. -/
theorem C1_expansion_semantics {α : Type} (options : List α) (conditions : List Bool)
    (defaultValue unlinked : α)
    (hlen : options.length = conditions.length) (hN : 1 ≤ conditions.length) :
    (∀ i, i < conditions.length → conditions.getD i false = true →
      (∀ j, j < i → conditions.getD j false = false) →
      ∃ hio : i < options.length,
        expandedGraphEval options conditions defaultValue unlinked = options.get ⟨i, hio⟩) ∧
    ((∀ i, i < conditions.length → conditions.getD i false = false) →
      expandedGraphEval options conditions defaultValue unlinked = defaultValue) := by
  constructor
  · intro i hi hT hL
    have hio : i < options.length := by omega
    refine ⟨hio, ?_⟩
    have hfind : array_Find conditions true = (i : Int) :=
      array_Find_of_least conditions i hi hT hL
    simp only [expandedGraphEval]
    rw [hfind]
    have heq : equalEqual_IntInt (i : Int) (-1) = false := by
      unfold equalEqual_IntInt
      simp only [beq_eq_false_iff_ne, ne_eq]
      omega
    rw [heq]
    have hlen2 : i < (select1stInputs options conditions.length unlinked).length := by
      unfold select1stInputs
      rw [List.length_append]
      omega
    unfold selectBool
    rw [if_neg (by simp), selectInt_natCast _ _ _ hlen2]
    unfold select1stInputs
    rw [getD_append_lt _ _ _ _ hio, getD_eq_get _ _ _ hio]
  · intro hall
    have hfind : array_Find conditions true = -1 :=
      (array_Find_eq_neg_one_iff conditions).mpr hall
    simp only [expandedGraphEval]
    rw [hfind]
    simp [equalEqual_IntInt, selectBool]

/-- Claim C1 witness: the theorem applied to options [10, 20],
conditions [false, true], default 7, with index 1 the least true index. -/
theorem C1_expansion_semantics_witness :
    expandedGraphEval ([10, 20] : List Nat) [false, true] 7 99 = 20 := by
  have hx := (C1_expansion_semantics ([10, 20] : List Nat) [false, true] 7 99 rfl
    (by decide)).1 1 (by decide) (by decide) (by decide)
  obtain ⟨hio, he⟩ := hx
  simpa using he

/-- Claim C2 counterexample: with 3 case pairs the expansion gives the
second Select node 3 option input pins (the loop at lines 255-261 adds
one AddInputPin per case pair beyond the second, exactly as for the
first Select), not exactly two as claimed. -/
theorem C2_counterexample : select2ndOptionPinCount 3 ≠ 2 := by decide

/-- Claim C2 amended: the expansion instantiates the second Select with
2 + (N - 2) = max 2 N option input pins (so exactly two only when
N ≤ 2); only its first two inputs are wired — its boolean index is the
result of comparing the search result with -1, index true selects the
default value and index false selects the first Select's output. -/
theorem C2_amended_select2nd {α : Type} (options : List α) (conditions : List Bool)
    (defaultValue unlinked : α) :
    select2ndOptionPinCount conditions.length = max 2 conditions.length ∧
    (array_Find conditions true = -1 →
      expandedGraphEval options conditions defaultValue unlinked = defaultValue) ∧
    (array_Find conditions true ≠ -1 →
      expandedGraphEval options conditions defaultValue unlinked =
        selectInt (select1stInputs options conditions.length unlinked)
          (array_Find conditions true) unlinked) := by
  refine ⟨?_, ?_, ?_⟩
  · unfold select2ndOptionPinCount
    omega
  · intro h
    simp only [expandedGraphEval]
    rw [h]
    simp [equalEqual_IntInt, selectBool]
  · intro h
    simp only [expandedGraphEval]
    have heq : equalEqual_IntInt (array_Find conditions true) (-1) = false := by
      unfold equalEqual_IntInt
      simp only [beq_eq_false_iff_ne, ne_eq]
      exact h
    rw [heq]
    simp [selectBool]

/-- Claim C2 amended witness: all-false conditions make the comparison
true and the second Select returns the default value. -/
theorem C2_amended_select2nd_witness :
    expandedGraphEval ([3, 4] : List Nat) [false, false] 9 0 = 9 :=
  (C2_amended_select2nd [3, 4] [false, false] 9 0).2.1 (by decide)

theorem nthName_cons_zero (p : Pin) (rest : List Pin) :
    nthName (p :: rest) 0 = some p.name := rfl

theorem nthName_cons_succ (p : Pin) (rest : List Pin) (i : Nat) :
    nthName (p :: rest) (i + 1) = nthName rest i := rfl

theorem nthName_append_len (l₁ l₂ : List Pin) :
    nthName (l₁ ++ l₂) l₁.length = nthName l₂ 0 := by
  have h := nthName_append_right l₁ l₂ 0
  simpa using h

theorem pinRoleLayout_nodeOf (N : Nat) (dT : PinType) (dV : String)
    (oT : Nat → PinType) (oV cV : Nat → String) (rT : PinType) (rV : String) :
    pinRoleLayout (nodeOf N dT dV oT oV cV rT rV) N := by
  unfold pinRoleLayout nodeOf
  refine ⟨?_, rfl, ?_, ?_, ?_⟩
  · simp [optionPinsSeg_length, conditionPinsSeg_length]
    omega
  · intro i hi
    rw [show 1 + i = i + 1 from by omega, nthName_cons_succ,
      nthName_append_left _ _ i (by rw [optionPinsSeg_length]; omega),
      optionPinsSeg_nthName 0 N i oT oV hi, Nat.zero_add]
  · intro i hi
    rw [show N + 1 + i = (N + i) + 1 from by omega, nthName_cons_succ,
      show N + i = (optionPinsSeg 0 N oT oV).length + i from by rw [optionPinsSeg_length],
      nthName_append_right,
      nthName_append_left _ _ i (by rw [conditionPinsSeg_length]; omega),
      conditionPinsSeg_nthName 0 N i cV hi, Nat.zero_add]
  · rw [show 2 * N + 1 = (N + N) + 1 from by omega, nthName_cons_succ,
      show N + N = (optionPinsSeg 0 N oT oV).length + N from by rw [optionPinsSeg_length],
      nthName_append_right,
      show nthName (conditionPinsSeg 0 N cV ++
          [(⟨.returnValue, .output, rT, rV⟩ : Pin)]) N =
        nthName (conditionPinsSeg 0 N cV ++ [(⟨.returnValue, .output, rT, rV⟩ : Pin)])
          (conditionPinsSeg 0 N cV).length from by rw [conditionPinsSeg_length],
      nthName_append_len]
    rfl

/-- Claim C3: after initial pin allocation the default pin is at position
0, the two initial case pairs occupy positions 1..4 (options 1..2,
conditions 3..4) with the result pin last (position 5); and after every
add-case-pair operation on a node whose pins form the canonical layout
with N case pairs, the ordinal layout is exactly
[default][option 0..N][condition 0..N][result]. -/
theorem C3_pin_layout :
    pinRoleLayout allocateDefaultPins 2 ∧
    ∀ N dT dV oT oV cV rT rV,
      pinRoleLayout (addCasePinPair (nodeOf N dT dV oT oV cV rT rV) N) (N + 1) := by
  constructor
  · decide
  · intro N dT dV oT oV cV rT rV
    rw [addCasePinPair_nodeOf]
    exact pinRoleLayout_nodeOf (N + 1) dT dV _ _ _ rT rV

/-- Claim C3 witness: adding a third case pair to a canonical two-pair
node yields the three-pair layout. -/
theorem C3_pin_layout_witness :
    pinRoleLayout (addCasePinPair (nodeOf 2 wildcardType "" (fun i => wildcardType)
      (fun i => "") (fun i => "") wildcardType "") 2) 3 :=
  C3_pin_layout.2 2 wildcardType "" (fun i => wildcardType) (fun i => "")
    (fun i => "") wildcardType ""

/-- Claim C8: adding a case pair creates an option pin whose declared
type equals the current default pin's type at the time of the call (dT,
whether wildcard or already fixed) and a condition pin whose declared
type is boolean. -/
theorem C8_addCasePinPair_types (N : Nat) (dT : PinType) (dV : String)
    (oT : Nat → PinType) (oV cV : Nat → String) (rT : PinType) (rV : String) :
    findPin (addCasePinPair (nodeOf N dT dV oT oV cV rT rV) N) (.caseOption N) =
      some ⟨.caseOption N, .input, dT, ""⟩ ∧
    findPin (addCasePinPair (nodeOf N dT dV oT oV cV rT rV) N) (.caseCondition N) =
      some ⟨.caseCondition N, .input, booleanType, ""⟩ := by
  rw [addCasePinPair_nodeOf]
  constructor
  · rw [findPin_nodeOf_caseOption _ _ _ _ _ _ _ _ N (by omega)]
    simp
  · rw [findPin_nodeOf_caseCondition _ _ _ _ _ _ _ _ N (by omega)]
    simp

/-- Claim C8 witness: on a node whose default pin's type is already the
boolean type, the added pair's option pin carries that fixed type. -/
theorem C8_addCasePinPair_types_witness :
    findPin (addCasePinPair (nodeOf 2 booleanType "x" (fun i => booleanType)
      (fun i => "") (fun i => "") booleanType "") 2) (.caseOption 2) =
      some ⟨.caseOption 2, .input, booleanType, ""⟩ :=
  (C8_addCasePinPair_types 2 booleanType "x" (fun i => booleanType) (fun i => "")
    (fun i => "") booleanType "").1

/-- Claim C10: a canonical node with N ≥ 1 case pairs yields a case-pair
sequence of length N, so the expansion's first indexing step — reading
case pair 0 to obtain the reference option pin — is in bounds. -/
theorem C10_reference_pin_in_bounds (N : Nat) (dT : PinType) (dV : String)
    (oT : Nat → PinType) (oV cV : Nat → String) (rT : PinType) (rV : String)
    (hN : 1 ≤ N) :
    (getCasePinPairs (nodeOf N dT dV oT oV cV rT rV)).length = N ∧
    (expandNodeReferenceOptionPin (nodeOf N dT dV oT oV cV rT rV)).isSome = true := by
  constructor
  · rw [getCasePinPairs_nodeOf]
    simp
  · unfold expandNodeReferenceOptionPin
    rw [getCasePinPairs_nodeOf]
    cases N with
    | zero => omega
    | succ k =>
      rw [List.range_succ_eq_map]
      simp

/-- Claim C10 witness: with a single case pair the reference option pin
exists. -/
theorem C10_reference_pin_in_bounds_witness :
    (getCasePinPairs (nodeOf 1 wildcardType "" (fun i => wildcardType) (fun i => "")
      (fun i => "") wildcardType "")).length = 1 :=
  (C10_reference_pin_in_bounds 1 wildcardType "" (fun i => wildcardType) (fun i => "")
    (fun i => "") wildcardType "" (by decide)).1

theorem find?_insertAt {α : Type} (p : α → Bool) (l : List α) (i : Nat) (a : α)
    (ha : p a = false) : (insertAt l i a).find? p = l.find? p := by
  unfold insertAt
  rcases hf : (l.take i).find? p with _ | x
  · rw [find?_append_none _ _ _ hf, List.find?_cons_of_neg _ (by simp [ha])]
    conv_rhs => rw [← List.take_append_drop i l]
    rw [find?_append_none _ _ _ hf]
  · rw [find?_append_some _ _ _ _ hf]
    conv_rhs => rw [← List.take_append_drop i l]
    rw [find?_append_some _ _ _ _ hf]

/-- Claim C6: the type-unification pass is idempotent and monotonic: on
any node whose default pin's type is already resolved (its category is
not the wildcard category), a connection event is a complete no-op for
any event pin and any linked peers, and adding a case pair never changes
the default pin's resolved type. -/
theorem C6_unification_idempotent (s : NodeState)
    (hf : (getDefaultOptionPinType s).category ≠ PC_Wildcard) :
    (∀ n lt, pinConnectionListChanged s n lt = s) ∧
    (∀ idx, getDefaultOptionPinType (addCasePinPair s idx) = getDefaultOptionPinType s) := by
  constructor
  · intro n lt
    unfold pinConnectionListChanged
    split
    · rfl
    · next pin heq =>
      by_cases h1 : lt.length = 0
      · rw [if_pos h1]
      · rw [if_neg h1]
        by_cases h2 : isCaseValuePin pin = true
        · rw [if_pos h2]
        · rw [if_neg h2, if_pos hf]
  · intro idx
    simp only [addCasePinPair]
    unfold getDefaultOptionPinType findPin
    rw [find?_insertAt _ _ _ _ (by simp), find?_insertAt _ _ _ _ (by simp)]

/-- Claim C6 witness: on a node fixed to the integer type, a connection
event carrying the boolean type changes nothing. -/
theorem C6_unification_idempotent_witness :
    pinConnectionListChanged (nodeOf 2 ⟨PC_Int, ""⟩ "0" (fun i => ⟨PC_Int, ""⟩)
      (fun i => "0") (fun i => "") ⟨PC_Int, ""⟩ "0") .defaultOption [⟨PC_Boolean, ""⟩] =
      nodeOf 2 ⟨PC_Int, ""⟩ "0" (fun i => ⟨PC_Int, ""⟩) (fun i => "0") (fun i => "")
        ⟨PC_Int, ""⟩ "0" :=
  (C6_unification_idempotent (nodeOf 2 ⟨PC_Int, ""⟩ "0" (fun i => ⟨PC_Int, ""⟩)
    (fun i => "0") (fun i => "") ⟨PC_Int, ""⟩ "0") (by decide)).1 .defaultOption
    [⟨PC_Boolean, ""⟩]

/-- Claim C7: the connection-validation check reports a connection as
disallowed with a non-empty reason whenever the other pin's type
category is the execution category; for every other pin (and for an
absent other pin) it returns exactly the superclass's decision, so a
connection is disallowed if and only if the other pin is an execution
pin or the superclass disallows it. -/
theorem C7_connection_rejection (myPin otherPin : Option Pin) (superResult : Bool × String) :
    ((isConnectionDisallowed myPin otherPin superResult).1 = true ↔
      ((∃ p, otherPin = some p ∧ p.pinType.category = PC_Exec) ∨ superResult.1 = true)) ∧
    (∀ p, otherPin = some p → p.pinType.category = PC_Exec →
      (isConnectionDisallowed myPin otherPin superResult).2 ≠ "") ∧
    (∀ p, otherPin = some p → p.pinType.category ≠ PC_Exec →
      isConnectionDisallowed myPin otherPin superResult = superResult) ∧
    (otherPin = none → isConnectionDisallowed myPin otherPin superResult = superResult) := by
  rcases otherPin with _ | other
  · refine ⟨?_, ?_, ?_, fun _ => rfl⟩
    · simp [isConnectionDisallowed]
    · intro p hp
      exact absurd hp (by simp)
    · intro p hp
      exact absurd hp (by simp)
  · by_cases hexec : other.pinType.category = PC_Exec
    · refine ⟨?_, ?_, ?_, ?_⟩
      · constructor
        · intro _
          exact Or.inl ⟨other, rfl, hexec⟩
        · intro _
          simp [isConnectionDisallowed, hexec]
      · intro p hp _
        injection hp with hpe
        subst hpe
        simp only [isConnectionDisallowed, if_pos hexec]
        decide
      · intro p hp hne
        injection hp with hpe
        subst hpe
        exact absurd hexec hne
      · intro h
        exact absurd h (by simp)
    · refine ⟨?_, ?_, ?_, ?_⟩
      · simp only [isConnectionDisallowed, if_neg hexec]
        constructor
        · intro h
          exact Or.inr h
        · rintro (⟨p, hp, hcat⟩ | h)
          · injection hp with hpe
            subst hpe
            exact absurd hcat hexec
          · exact h
      · intro p hp hcat
        injection hp with hpe
        subst hpe
        exact absurd hcat hexec
      · intro p hp _
        simp [isConnectionDisallowed, hexec]
      · intro h
        exact absurd h (by simp)

/-- Claim C7 witness: an execution-typed other pin is rejected with a
non-empty reason. -/
theorem C7_connection_rejection_witness :
    (isConnectionDisallowed none (some ⟨.returnValue, .output, ⟨PC_Exec, ""⟩, ""⟩)
      (false, "")).2 ≠ "" :=
  (C7_connection_rejection none (some ⟨.returnValue, .output, ⟨PC_Exec, ""⟩, ""⟩)
    (false, "")).2.1 ⟨.returnValue, .output, ⟨PC_Exec, ""⟩, ""⟩ rfl rfl

/-- Claim C4: when a non-condition pin of a canonical node receives its
first link while the default pin's type is still the wildcard type, the
type-unification pass sets the declared type of the default pin, the
result pin, and every option pin of every existing case pair to the
exact type of the newly linked pin's first link target, and resets each
of those pins' literal default values to that type's canonical
(autogenerated) default. -/
theorem C4_type_unification (N : Nat) (dT : PinType) (dV : String)
    (oT : Nat → PinType) (oV cV : Nat → String) (rT : PinType) (rV : String)
    (n : PinName) (t : PinType) (rest : List PinType)
    (hw : dT.category = PC_Wildcard)
    (hn : n = .defaultOption ∨ n = .returnValue ∨ ∃ j, j < N ∧ n = .caseOption j) :
    findPin (pinConnectionListChanged (nodeOf N dT dV oT oV cV rT rV) n (t :: rest))
        .defaultOption = some ⟨.defaultOption, .input, t, autogeneratedDefaultValue t⟩ ∧
    findPin (pinConnectionListChanged (nodeOf N dT dV oT oV cV rT rV) n (t :: rest))
        .returnValue = some ⟨.returnValue, .output, t, autogeneratedDefaultValue t⟩ ∧
    ∀ i, i < N →
      findPin (pinConnectionListChanged (nodeOf N dT dV oT oV cV rT rV) n (t :: rest))
        (.caseOption i) = some ⟨.caseOption i, .input, t, autogeneratedDefaultValue t⟩ := by
  rw [pinConnectionListChanged_nodeOf_fixes N dT dV oT oV cV rT rV n t rest hw hn]
  exact ⟨findPin_nodeOf_defaultOption _ _ _ _ _ _ _ _,
    findPin_nodeOf_returnValue _ _ _ _ _ _ _ _,
    fun i hi => findPin_nodeOf_caseOption _ _ _ _ _ _ _ _ i hi⟩

/-- Claim C4 witness: a first link of integer type on option pin 0 of a
fresh two-pair wildcard node fixes the default pin to the integer type
with literal reset to "0". -/
theorem C4_type_unification_witness :
    findPin (pinConnectionListChanged (nodeOf 2 wildcardType "" (fun i => wildcardType)
        (fun i => "") (fun i => "") wildcardType "") (.caseOption 0) [⟨PC_Int, ""⟩])
      .defaultOption = some ⟨.defaultOption, .input, ⟨PC_Int, ""⟩, "0"⟩ := by
  have h := (C4_type_unification 2 wildcardType "" (fun i => wildcardType) (fun i => "")
    (fun i => "") wildcardType "" (.caseOption 0) ⟨PC_Int, ""⟩ [] rfl
    (Or.inr (Or.inr ⟨0, by omega, rfl⟩))).1
  rw [h]
  decide

/-- Claim C9: the type-unification pass triggers without regard to pin
direction: a first link made to the result pin — an output pin — while
the default pin's type is still the wildcard type fixes the types of the
default pin, result pin, and all option pins exactly as a link to an
input pin does. -/
theorem C9_output_pin_triggers (N : Nat) (dT : PinType) (dV : String)
    (oT : Nat → PinType) (oV cV : Nat → String) (rT : PinType) (rV : String)
    (t : PinType) (rest : List PinType) (hw : dT.category = PC_Wildcard) :
    (findPin (nodeOf N dT dV oT oV cV rT rV) .returnValue).map (fun p => p.direction) =
      some .output ∧
    findPin (pinConnectionListChanged (nodeOf N dT dV oT oV cV rT rV) .returnValue
        (t :: rest)) .defaultOption =
      some ⟨.defaultOption, .input, t, autogeneratedDefaultValue t⟩ ∧
    findPin (pinConnectionListChanged (nodeOf N dT dV oT oV cV rT rV) .returnValue
        (t :: rest)) .returnValue =
      some ⟨.returnValue, .output, t, autogeneratedDefaultValue t⟩ ∧
    ∀ i, i < N →
      findPin (pinConnectionListChanged (nodeOf N dT dV oT oV cV rT rV) .returnValue
        (t :: rest)) (.caseOption i) =
        some ⟨.caseOption i, .input, t, autogeneratedDefaultValue t⟩ := by
  refine ⟨?_, ?_⟩
  · rw [findPin_nodeOf_returnValue]
    rfl
  · rw [pinConnectionListChanged_nodeOf_fixes N dT dV oT oV cV rT rV .returnValue t rest hw
      (Or.inr (Or.inl rfl))]
    exact ⟨findPin_nodeOf_defaultOption _ _ _ _ _ _ _ _,
      findPin_nodeOf_returnValue _ _ _ _ _ _ _ _,
      fun i hi => findPin_nodeOf_caseOption _ _ _ _ _ _ _ _ i hi⟩

/-- Claim C9 witness: a first link of boolean type on the output result
pin of a fresh two-pair wildcard node fixes the default pin's type to
boolean. -/
theorem C9_output_pin_triggers_witness :
    findPin (pinConnectionListChanged (nodeOf 2 wildcardType "" (fun i => wildcardType)
        (fun i => "") (fun i => "") wildcardType "") .returnValue [booleanType])
      .defaultOption = some ⟨.defaultOption, .input, booleanType, "false"⟩ := by
  have h := (C9_output_pin_triggers 2 wildcardType "" (fun i => wildcardType)
    (fun i => "") (fun i => "") wildcardType "" booleanType [] rfl).2.1
  rw [h]
  decide

/- Reconstruction computations. -/

theorem basePins_eq :
    createReturnValuePin (createDefaultOptionPin ⟨[]⟩) =
      nodeOf 0 wildcardType "" (fun i => wildcardType) (fun i => "")
        (fun i => "") wildcardType "" := by
  decide

theorem foldl_addCasePinPair_range (k : Nat) :
    (List.range k).foldl (fun st i => addCasePinPair st i)
        (nodeOf 0 wildcardType "" (fun i => wildcardType) (fun i => "")
          (fun i => "") wildcardType "") =
      nodeOf k wildcardType "" (fun i => wildcardType) (fun i => "")
        (fun i => "") wildcardType "" := by
  induction k with
  | zero => rfl
  | succ k' ih =>
    rw [List.range_succ, List.foldl_append, ih, List.foldl_cons, List.foldl_nil,
      addCasePinPair_nodeOf]
    exact nodeOf_congr (k' + 1) wildcardType "" _ _ _ _ _ _ wildcardType ""
      (fun i hi => by simp) (fun i hi => by simp) (fun i hi => by simp)

theorem foldl_setPinType_range (N : Nat) (dT : PinType) (dV : String)
    (oT : Nat → PinType) (oV cV : Nat → String) (rT : PinType) (rV : String)
    (t : PinType) (k : Nat) :
    (List.range k).foldl (fun st i => setPinType st (.caseOption i) t)
        (nodeOf N dT dV oT oV cV rT rV) =
      nodeOf N dT dV (fun i => if i < k then t else oT i) oV cV rT rV := by
  induction k with
  | zero =>
    simp only [List.range_zero, List.foldl_nil]
    exact nodeOf_congr N dT dV _ _ _ _ cV cV rT rV
      (fun i hi => by simp) (fun i hi => rfl) (fun i hi => rfl)
  | succ k' ih =>
    rw [List.range_succ, List.foldl_append, ih, List.foldl_cons, List.foldl_nil,
      setPinType_nodeOf_caseOption]
    apply nodeOf_congr
    · intro i hi
      by_cases he : i = k'
      · subst he
        rw [if_pos rfl, if_pos (by omega)]
      · by_cases hlt : i < k'
        · rw [if_neg he, if_pos hlt, if_pos (by omega)]
        · rw [if_neg he, if_neg hlt, if_neg (by omega)]
    · intro i hi
      by_cases he : i = k'
      · subst he
        rw [if_pos rfl]
      · rw [if_neg he]
    · intro i hi
      rfl

theorem reallocate_eq (oldPins : List Pin) (od : Pin)
    (hfodp : findOldDefaultPin oldPins = some od) :
    reallocatePinsDuringReconstruction oldPins =
      nodeOf (oldPins.countP (fun p => isOptionPin p)) od.pinType ""
        (fun i => od.pinType) (fun i => "") (fun i => "") od.pinType "" := by
  unfold reallocatePinsDuringReconstruction
  rw [hfodp]
  dsimp only
  have hsuper : superReallocatePins (createReturnValuePin (createDefaultOptionPin ⟨[]⟩))
      oldPins = nodeOf (oldPins.countP (fun p => isOptionPin p)) wildcardType ""
        (fun i => wildcardType) (fun i => "") (fun i => "") wildcardType "" := by
    unfold superReallocatePins
    rw [basePins_eq]
    exact foldl_addCasePinPair_range _
  rw [hsuper, setPinType_nodeOf_defaultOption, setPinType_nodeOf_returnValue,
    getCasePinPairs_nodeOf, List.foldl_map]
  exact (foldl_setPinType_range (oldPins.countP (fun p => isOptionPin p)) od.pinType ""
      (fun i => wildcardType) (fun i => "") (fun i => "") od.pinType "" od.pinType
      (oldPins.countP (fun p => isOptionPin p))).trans
    (nodeOf_congr _ od.pinType "" _ _ _ _ _ _ od.pinType ""
      (fun i hi => by simp [hi]) (fun i hi => rfl) (fun i hi => rfl))

/-- Claim C5: after a reconstruction event in which an old pin named
like the default pin exists (found by stable-name lookup among the old
pins), the new default pin, the new result pin, and every new option pin
have a declared type equal to the old default pin's type, while
condition pins are not type-copied and remain boolean. -/
theorem C5_reconstruction_types (oldPins : List Pin) (od : Pin)
    (hfodp : findOldDefaultPin oldPins = some od) :
    findPin (reallocatePinsDuringReconstruction oldPins) .defaultOption =
      some ⟨.defaultOption, .input, od.pinType, ""⟩ ∧
    findPin (reallocatePinsDuringReconstruction oldPins) .returnValue =
      some ⟨.returnValue, .output, od.pinType, ""⟩ ∧
    (∀ i, i < oldPins.countP (fun p => isOptionPin p) →
      findPin (reallocatePinsDuringReconstruction oldPins) (.caseOption i) =
        some ⟨.caseOption i, .input, od.pinType, ""⟩) ∧
    (∀ i, i < oldPins.countP (fun p => isOptionPin p) →
      findPin (reallocatePinsDuringReconstruction oldPins) (.caseCondition i) =
        some ⟨.caseCondition i, .input, booleanType, ""⟩) := by
  rw [reallocate_eq oldPins od hfodp]
  exact ⟨findPin_nodeOf_defaultOption _ _ _ _ _ _ _ _,
    findPin_nodeOf_returnValue _ _ _ _ _ _ _ _,
    fun i hi => findPin_nodeOf_caseOption _ _ _ _ _ _ _ _ i hi,
    fun i hi => findPin_nodeOf_caseCondition _ _ _ _ _ _ _ _ i hi⟩

/-- Claim C5 witness: reconstructing from an old pin set whose default
pin was fixed to the integer type yields a new default pin of the
integer type and a boolean condition pin 0. -/
theorem C5_reconstruction_types_witness :
    findPin (reallocatePinsDuringReconstruction
        [⟨.defaultOption, .input, ⟨PC_Int, ""⟩, "5"⟩,
         ⟨.caseOption 0, .input, ⟨PC_Int, ""⟩, ""⟩,
         ⟨.caseOption 1, .input, ⟨PC_Int, ""⟩, ""⟩,
         ⟨.caseCondition 0, .input, booleanType, "false"⟩,
         ⟨.caseCondition 1, .input, booleanType, "false"⟩,
         ⟨.returnValue, .output, ⟨PC_Int, ""⟩, ""⟩]) .defaultOption =
      some ⟨.defaultOption, .input, ⟨PC_Int, ""⟩, ""⟩ := by
  have h := (C5_reconstruction_types
    [⟨.defaultOption, .input, ⟨PC_Int, ""⟩, "5"⟩,
     ⟨.caseOption 0, .input, ⟨PC_Int, ""⟩, ""⟩,
     ⟨.caseOption 1, .input, ⟨PC_Int, ""⟩, ""⟩,
     ⟨.caseCondition 0, .input, booleanType, "false"⟩,
     ⟨.caseCondition 1, .input, booleanType, "false"⟩,
     ⟨.returnValue, .output, ⟨PC_Int, ""⟩, ""⟩]
    ⟨.defaultOption, .input, ⟨PC_Int, ""⟩, "5"⟩ (by decide)).1
  rw [h]
